import Mathlib

/-!
Verification of the CVCutter pipeline against its natural-language
specification.

The source program is Python; the definitions below are a shallow embedding:
floating-point offsets and timestamps are modelled as rationals (ℚ), Python
lists as Lean lists, and the external world (YOLO detections, ffmpeg, the
YouTube API, wall-clock time) as explicit inputs to the functions.
-/

namespace CVCutter

/-! ### video_processor.get_consensus_offset (lines 20-30)

```python
def get_consensus_offset(offsets, tolerance=1.0):
    if not offsets: return None
    sorted_offsets = sorted(offsets)
    best_cluster = []
    for i in range(len(sorted_offsets)):
        current_offset = sorted_offsets[i]
        current_cluster = [o for o in sorted_offsets if abs(o - current_offset) <= tolerance]
        if len(current_cluster) > len(best_cluster):
            best_cluster = current_cluster
    if not best_cluster: return np.median(sorted_offsets)
    return np.mean(best_cluster)
```

The builtin `sorted` is modelled by insertion sort: any correct sort of a
list of rationals under the total order `≤` produces the same list. -/

/-- The cluster of all samples within `tolerance` of the pivot `c`
(the list comprehension on line 26 of `video_processor.py`). -/
def clusterAround (sortedOffsets : List ℚ) (tolerance c : ℚ) : List ℚ :=
  sortedOffsets.filter (fun o => |o - c| ≤ tolerance)

/-- The `for i in range(...)` loop of `get_consensus_offset`: keep the first
cluster of maximal size (strict `>` comparison against the best so far). -/
def bestClusterLoop (sortedOffsets : List ℚ) (tolerance : ℚ) :
    List ℚ → List ℚ → List ℚ
  | [], best => best
  | c :: rest, best =>
      let current := clusterAround sortedOffsets tolerance c
      bestClusterLoop sortedOffsets tolerance rest
        (if best.length < current.length then current else best)

/-- The value of `best_cluster` after the loop of `get_consensus_offset`. -/
def bestCluster (offsets : List ℚ) (tolerance : ℚ) : List ℚ :=
  let sortedOffsets := offsets.insertionSort (· ≤ ·)
  bestClusterLoop sortedOffsets tolerance sortedOffsets []

/-- Arithmetic mean of a list of rationals (`np.mean`). -/
def listMean (l : List ℚ) : ℚ := l.sum / l.length

/-- Median of a sorted list of rationals (`np.median` applied to an already
sorted list): the middle element for odd length, the mean of the two middle
elements for even positive length. -/
def sortedMedian (l : List ℚ) : ℚ :=
  if l.length % 2 = 1 then l.getD (l.length / 2) 0
  else (l.getD (l.length / 2 - 1) 0 + l.getD (l.length / 2) 0) / 2

/-- `get_consensus_offset` (video_processor.py lines 20-30). -/
def get_consensus_offset (offsets : List ℚ) (tolerance : ℚ) : Option ℚ :=
  if offsets = [] then none
  else
    let best := bestCluster offsets tolerance
    if best = [] then some (sortedMedian (offsets.insertionSort (· ≤ ·)))
    else some (listMean best)

/-- The spec sentence under test in C2: pairwise differences of a group of
samples all lie within the tolerance. (Spec wording, not source code.) -/
def pairwiseWithin (t : ℚ) (l : List ℚ) : Prop :=
  ∀ a ∈ l, ∀ b ∈ l, |a - b| ≤ t

/-- Claim C2 as stated by the spec, at a given input: the consensus is the
mean of a maximum-size sub-collection of the samples whose pairwise
differences all lie within the tolerance. (Spec wording, for comparison with
the source definition `get_consensus_offset`.) -/
def consensusSpecClaim (offsets : List ℚ) (t : ℚ) : Prop :=
  ∃ S : List ℚ, S.Sublist offsets ∧ pairwiseWithin t S ∧
    (∀ T : List ℚ, T.Sublist offsets → pairwiseWithin t T → T.length ≤ S.length) ∧
    get_consensus_offset offsets t = some (listMean S)

/-! Helper lemmas about the cluster loop. -/

lemma length_le_bestClusterLoop (sortedOffsets : List ℚ) (t : ℚ) :
    ∀ rest best : List ℚ,
      best.length ≤ (bestClusterLoop sortedOffsets t rest best).length := by
  intro rest
  induction rest with
  | nil => intro best; simp [bestClusterLoop]
  | cons c rest ih =>
      intro best
      rw [bestClusterLoop]
      refine le_trans ?_ (ih _)
      split <;> omega

lemma clusterAround_length_le_bestClusterLoop (sortedOffsets : List ℚ) (t : ℚ) :
    ∀ rest best : List ℚ, ∀ c ∈ rest,
      (clusterAround sortedOffsets t c).length ≤
        (bestClusterLoop sortedOffsets t rest best).length := by
  intro rest
  induction rest with
  | nil => intro best c hc; simp at hc
  | cons d rest ih =>
      intro best c hc
      rw [bestClusterLoop]
      rcases List.mem_cons.mp hc with h | h
      · subst h
        refine le_trans ?_ (length_le_bestClusterLoop _ _ _ _)
        split <;> omega
      · exact ih _ c h

lemma bestClusterLoop_eq_or_cluster (sortedOffsets : List ℚ) (t : ℚ) :
    ∀ rest best : List ℚ,
      bestClusterLoop sortedOffsets t rest best = best ∨
        ∃ p ∈ rest, bestClusterLoop sortedOffsets t rest best =
          clusterAround sortedOffsets t p := by
  intro rest
  induction rest with
  | nil => intro best; left; simp [bestClusterLoop]
  | cons c rest ih =>
      intro best
      rw [bestClusterLoop]
      by_cases h : best.length < (clusterAround sortedOffsets t c).length
      · rcases ih (clusterAround sortedOffsets t c) with h1 | ⟨p, hp, h1⟩
        · right; exact ⟨c, List.mem_cons_self .., by simp [h, h1]⟩
        · right; exact ⟨p, List.mem_cons_of_mem _ hp, by simp [h, h1]⟩
      · rcases ih best with h1 | ⟨p, hp, h1⟩
        · left; simp [h, h1]
        · right; exact ⟨p, List.mem_cons_of_mem _ hp, by simp [h, h1]⟩

lemma self_mem_clusterAround {l : List ℚ} {t c : ℚ} (ht : 0 ≤ t) (hc : c ∈ l) :
    c ∈ clusterAround l t c := by
  simp only [clusterAround, List.mem_filter, hc, true_and]
  simpa using ht

lemma insertionSort_ne_nil {l : List ℚ} (h : l ≠ []) :
    l.insertionSort (· ≤ ·) ≠ [] := by
  intro hs
  exact h (List.eq_nil_of_length_eq_zero
    (by rw [← (List.perm_insertionSort (· ≤ ·) l).length_eq, hs, List.length_nil]))

lemma bestCluster_ne_nil {offsets : List ℚ} {t : ℚ}
    (hne : offsets ≠ []) (ht : 0 ≤ t) : bestCluster offsets t ≠ [] := by
  have hs : offsets.insertionSort (· ≤ ·) ≠ [] := insertionSort_ne_nil hne
  obtain ⟨c, hc⟩ := List.exists_mem_of_ne_nil _ hs
  have h1 : 1 ≤ (clusterAround (offsets.insertionSort (· ≤ ·)) t c).length :=
    List.length_pos.mpr (List.ne_nil_of_mem (self_mem_clusterAround ht hc))
  have h2 := clusterAround_length_le_bestClusterLoop
    (offsets.insertionSort (· ≤ ·)) t (offsets.insertionSort (· ≤ ·)) [] c hc
  intro h
  have h3 : bestClusterLoop (offsets.insertionSort (· ≤ ·)) t
      (offsets.insertionSort (· ≤ ·)) [] = [] := h
  rw [h3] at h2
  simp only [List.length_nil] at h2
  omega

/-- C9: for every non-empty sample list (and the non-negative tolerance the
program uses), the best cluster contains at least the pivot sample, so the
median fallback guarded by `if not best_cluster` is unreachable: the function
returns the mean of the non-empty best cluster, and returns `None` only for
an empty input list. -/
theorem consensus_fallback_unreachable (offsets : List ℚ) (t : ℚ)
    (hne : offsets ≠ []) (ht : 0 ≤ t) :
    bestCluster offsets t ≠ [] ∧
    get_consensus_offset offsets t = some (listMean (bestCluster offsets t)) ∧
    get_consensus_offset [] t = none := by
  have hbc := bestCluster_ne_nil hne ht
  refine ⟨hbc, ?_, by simp [get_consensus_offset]⟩
  rw [get_consensus_offset, if_neg hne]
  simp only [hbc, if_neg]
  simp [hbc]

/-- Closed instantiation of `consensus_fallback_unreachable`. -/
theorem consensus_fallback_unreachable_witness :
    bestCluster [(3 : ℚ)] 1 ≠ [] ∧
    get_consensus_offset [(3 : ℚ)] 1 = some (listMean (bestCluster [(3 : ℚ)] 1)) ∧
    get_consensus_offset [] 1 = none :=
  consensus_fallback_unreachable [(3 : ℚ)] 1 (by simp) (by norm_num)

lemma sublist_one {α : Type} {a : α} {S : List α} (h : S.Sublist [a]) :
    S = [] ∨ S = [a] := by
  rcases List.sublist_cons_iff.mp h with h1 | ⟨r, rfl, hr⟩
  · left; simpa using h1
  · right; simp [List.sublist_nil.mp hr]

lemma sublist_two {α : Type} {a b : α} {S : List α} (h : S.Sublist [a, b]) :
    S = [] ∨ S = [a] ∨ S = [b] ∨ S = [a, b] := by
  rcases List.sublist_cons_iff.mp h with h1 | ⟨r, rfl, hr⟩
  · rcases sublist_one h1 with rfl | rfl
    · exact Or.inl rfl
    · exact Or.inr (Or.inr (Or.inl rfl))
  · rcases sublist_one hr with rfl | rfl
    · exact Or.inr (Or.inl rfl)
    · exact Or.inr (Or.inr (Or.inr rfl))

lemma sublist_three {α : Type} {a b c : α} {S : List α} (h : S.Sublist [a, b, c]) :
    S = [] ∨ S = [a] ∨ S = [b] ∨ S = [c] ∨
      S = [a, b] ∨ S = [a, c] ∨ S = [b, c] ∨ S = [a, b, c] := by
  rcases List.sublist_cons_iff.mp h with h1 | ⟨r, rfl, hr⟩
  · rcases sublist_two h1 with rfl | rfl | rfl | rfl
    · exact Or.inl rfl
    · exact Or.inr (Or.inr (Or.inl rfl))
    · exact Or.inr (Or.inr (Or.inr (Or.inl rfl)))
    · exact Or.inr (Or.inr (Or.inr (Or.inr (Or.inr (Or.inr (Or.inl rfl))))))
  · rcases sublist_two hr with rfl | rfl | rfl | rfl
    · exact Or.inr (Or.inl rfl)
    · exact Or.inr (Or.inr (Or.inr (Or.inr (Or.inl rfl))))
    · exact Or.inr (Or.inr (Or.inr (Or.inr (Or.inr (Or.inl rfl)))))
    · exact Or.inr (Or.inr (Or.inr (Or.inr (Or.inr (Or.inr (Or.inr rfl))))))

/-- C2 counterexample: on samples `[0, 1, 2]` with tolerance `1`, the code
returns the mean of the best pivot cluster `[0, 1, 2]` (which is `1`), but no
maximum-size sub-collection with all pairwise differences within the
tolerance has mean `1` — the pivot cluster is only pairwise-within `2 *
tolerance`, not within `tolerance`, so the claim as stated is false. -/
theorem consensus_pairwise_claim_false : ¬ consensusSpecClaim [0, 1, 2] 1 := by
  have hval : get_consensus_offset [0, 1, 2] 1 = some 1 := by
    norm_num [get_consensus_offset, bestCluster, bestClusterLoop, clusterAround,
      listMean, List.insertionSort, List.orderedInsert, List.filter_cons, abs_le]
    exact ⟨by simp, by simp⟩
  rintro ⟨S, hsub, hpw, hmax, heq⟩
  have hmean : listMean S = 1 := by
    have h := hval.symm.trans heq
    exact (Option.some.inj h).symm
  have hpw01 : pairwiseWithin 1 [0, 1] := by
    intro a ha b hb
    simp only [List.mem_cons, List.not_mem_nil, or_false] at ha hb
    rcases ha with rfl | rfl <;> rcases hb with rfl | rfl <;> norm_num [abs_le]
  have hlen : 2 ≤ S.length := by
    have := hmax [0, 1] (by simp) hpw01
    simpa using this
  rcases sublist_three hsub with rfl | rfl | rfl | rfl | rfl | rfl | rfl | rfl
  · simp at hlen
  · simp at hlen
  · simp at hlen
  · simp at hlen
  · norm_num [listMean] at hmean
  · have := hpw 0 (by simp) 2 (by simp)
    norm_num [abs_le] at this
  · norm_num [listMean] at hmean
  · have := hpw 0 (by simp) 2 (by simp)
    norm_num [abs_le] at this

/-- C2, amended: `get_consensus_offset` returns the mean of a maximum-size
pivot cluster — for each sample, the group of all samples within `tolerance`
of that pivot (so pairwise differences within the cluster are within
`2 * tolerance`, not `tolerance`); the loop keeps a largest such group, and
on `[5.0, 5.1, 4.9, 40.0]` with tolerance `1.0` the consensus is `5.0`. -/
theorem consensus_max_pivot_cluster (offsets : List ℚ) (t : ℚ)
    (hne : offsets ≠ []) (ht : 0 ≤ t) :
    (∃ p ∈ offsets.insertionSort (· ≤ ·),
        bestCluster offsets t = clusterAround (offsets.insertionSort (· ≤ ·)) t p) ∧
    (∀ c ∈ offsets.insertionSort (· ≤ ·),
        (clusterAround (offsets.insertionSort (· ≤ ·)) t c).length ≤
          (bestCluster offsets t).length) ∧
    (∀ a ∈ bestCluster offsets t, ∀ b ∈ bestCluster offsets t, |a - b| ≤ 2 * t) ∧
    get_consensus_offset offsets t = some (listMean (bestCluster offsets t)) ∧
    get_consensus_offset [5, 51/10, 49/10, 40] 1 = some 5 := by
  have hbc := bestCluster_ne_nil hne ht
  have hpivot : ∃ p ∈ offsets.insertionSort (· ≤ ·),
      bestCluster offsets t = clusterAround (offsets.insertionSort (· ≤ ·)) t p := by
    rcases bestClusterLoop_eq_or_cluster (offsets.insertionSort (· ≤ ·)) t
        (offsets.insertionSort (· ≤ ·)) [] with h1 | ⟨p, hp, h1⟩
    · exact absurd h1 hbc
    · exact ⟨p, hp, h1⟩
  refine ⟨hpivot, ?_, ?_, ?_, ?_⟩
  · intro c hc
    exact clusterAround_length_le_bestClusterLoop _ t _ [] c hc
  · rcases hpivot with ⟨p, _, hp⟩
    intro a ha b hb
    rw [hp] at ha hb
    have hap : |a - p| ≤ t := by
      have := (List.mem_filter.mp ha).2
      simpa using this
    have hbp : |b - p| ≤ t := by
      have := (List.mem_filter.mp hb).2
      simpa using this
    calc |a - b| = |(a - p) - (b - p)| := by ring_nf
      _ ≤ |a - p| + |b - p| := abs_sub _ _
      _ ≤ t + t := add_le_add hap hbp
      _ = 2 * t := by ring
  · rw [get_consensus_offset, if_neg hne]
    simp [hbc]
  · norm_num [get_consensus_offset, bestCluster, bestClusterLoop, clusterAround,
      listMean, List.insertionSort, List.orderedInsert, List.filter_cons, abs_le]
    exact ⟨by simp, by simp⟩

/-- Closed instantiation of `consensus_max_pivot_cluster`. -/
theorem consensus_max_pivot_cluster_witness :
    get_consensus_offset [5, 51/10, 49/10, 40] 1 = some 5 :=
  (consensus_max_pivot_cluster [(0 : ℚ)] 1 (by simp) (by norm_num)).2.2.2.2

/-! ### detect_performances (detect_performances.py lines 35-105)

The YOLO tracker and the geometric zone test are external vision components;
the state machine consumes, per decoded frame, whether the tracked set
`current_center_ids` is non-empty. Timestamps are `frame_number / fps` as in
the source. `max_seconds_to_process` truncates the frame stream and the
`show_video` branch only draws, so the input list is the sequence of frames
actually processed. -/

/-- The `while cap.isOpened()` loop (lines 40-92): the `EMPTY`/`PERFORMING`
state machine. Returns the final `(performance_segments, stage_status,
performance_start_time, frame_number)`; `performing` models
`stage_status == PERFORMING`. A segment is appended on the
`PERFORMING → EMPTY` transition only when its duration reaches
`min_duration_seconds` (line 64). -/
def detectLoop (fps minDur : ℚ) :
    List Bool → ℕ → Bool → ℚ → List (ℚ × ℚ) → List (ℚ × ℚ) × Bool × ℚ × ℕ
  | [], n, performing, st, segs => (segs, performing, st, n)
  | occ :: rest, n, performing, st, segs =>
    if performing = false ∧ occ = true then
      detectLoop fps minDur rest (n + 1) true ((n : ℚ) / fps) segs
    else if performing = true ∧ occ = false then
      let endTime : ℚ := (n : ℚ) / fps
      let segs1 := if minDur ≤ endTime - st then segs ++ [(st, endTime)] else segs
      detectLoop fps minDur rest (n + 1) false 0 segs1
    else
      detectLoop fps minDur rest (n + 1) performing st segs

/-- `detect_performances` as a function of per-frame occupancy: run the loop,
close a still-open episode at `frame_number / fps` subject to the same
duration filter (lines 94-98), and return the segments sorted by start time
(line 105; the list is already in order, and insertion sort models the stable
builtin sort). -/
def detect_performances (fps minDur : ℚ) (frames : List Bool) : List (ℚ × ℚ) :=
  (if (detectLoop fps minDur frames 0 false 0 []).2.1 = true ∧
      minDur ≤ ((detectLoop fps minDur frames 0 false 0 []).2.2.2 : ℚ) / fps -
        (detectLoop fps minDur frames 0 false 0 []).2.2.1
    then (detectLoop fps minDur frames 0 false 0 []).1 ++
      [((detectLoop fps minDur frames 0 false 0 []).2.2.1,
        ((detectLoop fps minDur frames 0 false 0 []).2.2.2 : ℚ) / fps)]
    else (detectLoop fps minDur frames 0 false 0 []).1).insertionSort
      (fun a b => a.1 ≤ b.1)

/-- The occupancy episodes of a frame stream: the same state machine with no
minimum-duration filter, every episode closed either on the
`PERFORMING → EMPTY` transition or at the end of the stream. Reference
definition for the claim that the detector emits exactly the episodes of
sufficient duration. -/
def episodesLoop (fps : ℚ) :
    List Bool → ℕ → Bool → ℚ → List (ℚ × ℚ) → List (ℚ × ℚ) × Bool × ℚ × ℕ
  | [], n, performing, st, segs => (segs, performing, st, n)
  | occ :: rest, n, performing, st, segs =>
    if performing = false ∧ occ = true then
      episodesLoop fps rest (n + 1) true ((n : ℚ) / fps) segs
    else if performing = true ∧ occ = false then
      episodesLoop fps rest (n + 1) false 0 (segs ++ [(st, (n : ℚ) / fps)])
    else
      episodesLoop fps rest (n + 1) performing st segs

/-- All occupancy episodes of a frame stream, unfiltered. -/
def episodes (fps : ℚ) (frames : List Bool) : List (ℚ × ℚ) :=
  if (episodesLoop fps frames 0 false 0 []).2.1 = true
    then (episodesLoop fps frames 0 false 0 []).1 ++
      [((episodesLoop fps frames 0 false 0 []).2.2.1,
        ((episodesLoop fps frames 0 false 0 []).2.2.2 : ℚ) / fps)]
    else (episodesLoop fps frames 0 false 0 []).1

/-- The duration filter of the detector, as a Boolean predicate. -/
def durOK (minDur : ℚ) (s : ℚ × ℚ) : Bool := minDur ≤ s.2 - s.1

lemma detectLoop_eq_filter_episodesLoop (fps minDur : ℚ) :
    ∀ (frames : List Bool) (n : ℕ) (p : Bool) (st : ℚ) (segs : List (ℚ × ℚ)),
      detectLoop fps minDur frames n p st (segs.filter (durOK minDur)) =
        ((episodesLoop fps frames n p st segs).1.filter (durOK minDur),
          (episodesLoop fps frames n p st segs).2) := by
  intro frames
  induction frames with
  | nil => intro n p st segs; simp [detectLoop, episodesLoop]
  | cons occ rest ih =>
      intro n p st segs
      rw [detectLoop, episodesLoop]
      by_cases h1 : p = false ∧ occ = true
      · simp only [h1, if_pos, and_self, ih]
      · rw [if_neg h1, if_neg h1]
        by_cases h2 : p = true ∧ occ = false
        · rw [if_pos h2, if_pos h2]
          have hfilter :
              (if minDur ≤ (n : ℚ) / fps - st
                then segs.filter (durOK minDur) ++ [(st, (n : ℚ) / fps)]
                else segs.filter (durOK minDur)) =
              (segs ++ [(st, (n : ℚ) / fps)]).filter (durOK minDur) := by
            rw [List.filter_append]
            by_cases hd : minDur ≤ (n : ℚ) / fps - st
            · rw [if_pos hd]
              simp [durOK, hd]
            · rw [if_neg hd]
              simp [durOK, hd]
          simp only [hfilter, ih]
        · rw [if_neg h2, if_neg h2, ih]

/-- Invariant carried by the episode loop: every recorded segment runs from
one frame timestamp to a strictly later one no later than the current frame,
segments do not overlap, and while performing the candidate start is an
earlier frame timestamp past every recorded segment. -/
def SegsInv (fps : ℚ) (n : ℕ) (p : Bool) (st : ℚ) (segs : List (ℚ × ℚ)) : Prop :=
  (∀ s ∈ segs, ∃ j k : ℕ, j < k ∧ k ≤ n ∧ s.1 = (j : ℚ) / fps ∧ s.2 = (k : ℚ) / fps) ∧
  segs.Pairwise (fun a b => a.2 ≤ b.1) ∧
  (p = true → (∃ j : ℕ, j < n ∧ st = (j : ℚ) / fps) ∧ ∀ s ∈ segs, s.2 ≤ st)

lemma SegsInv.closeEpisode {fps : ℚ} {n : ℕ} {st : ℚ} {segs : List (ℚ × ℚ)}
    (h : SegsInv fps n true st segs) :
    SegsInv fps (n + 1) false 0 (segs ++ [(st, (n : ℚ) / fps)]) := by
  obtain ⟨hall, hpw, hperf⟩ := h
  obtain ⟨⟨j, hj, hst⟩, hends⟩ := hperf rfl
  refine ⟨?_, ?_, by simp⟩
  · intro s hs
    rcases List.mem_append.mp hs with hs | hs
    · obtain ⟨a, b, hab, hbn, h1, h2⟩ := hall s hs
      exact ⟨a, b, hab, by omega, h1, h2⟩
    · rw [List.mem_singleton.mp hs]
      exact ⟨j, n, hj, by omega, hst, rfl⟩
  · rw [List.pairwise_append]
    refine ⟨hpw, by simp, ?_⟩
    intro a ha b hb
    rw [List.mem_singleton.mp hb]
    exact hends a ha

lemma SegsInv.openEpisode {fps : ℚ} {n : ℕ} {st : ℚ} {segs : List (ℚ × ℚ)}
    (hfps : 0 < fps) (h : SegsInv fps n false st segs) :
    SegsInv fps (n + 1) true ((n : ℚ) / fps) segs := by
  obtain ⟨hall, hpw, _⟩ := h
  refine ⟨?_, hpw, ?_⟩
  · intro s hs
    obtain ⟨a, b, hab, hbn, h1, h2⟩ := hall s hs
    exact ⟨a, b, hab, by omega, h1, h2⟩
  · intro _
    refine ⟨⟨n, by omega, rfl⟩, ?_⟩
    intro s hs
    obtain ⟨a, b, hab, hbn, h1, h2⟩ := hall s hs
    rw [h2]
    have hb : (b : ℚ) ≤ (n : ℚ) := by exact_mod_cast hbn
    exact (div_le_div_iff_of_pos_right hfps).mpr hb

lemma SegsInv.step {fps : ℚ} {n : ℕ} {p : Bool} {st : ℚ} {segs : List (ℚ × ℚ)}
    (h : SegsInv fps n p st segs) :
    SegsInv fps (n + 1) p st segs := by
  obtain ⟨hall, hpw, hperf⟩ := h
  refine ⟨?_, hpw, ?_⟩
  · intro s hs
    obtain ⟨a, b, hab, hbn, h1, h2⟩ := hall s hs
    exact ⟨a, b, hab, by omega, h1, h2⟩
  · intro hp
    obtain ⟨⟨j, hj, hst⟩, hends⟩ := hperf hp
    exact ⟨⟨j, by omega, hst⟩, hends⟩

lemma episodesLoop_inv {fps : ℚ} (hfps : 0 < fps) :
    ∀ (frames : List Bool) (n : ℕ) (p : Bool) (st : ℚ) (segs : List (ℚ × ℚ)),
      SegsInv fps n p st segs →
      SegsInv fps (episodesLoop fps frames n p st segs).2.2.2
        (episodesLoop fps frames n p st segs).2.1
        (episodesLoop fps frames n p st segs).2.2.1
        (episodesLoop fps frames n p st segs).1 := by
  intro frames
  induction frames with
  | nil => intro n p st segs h; simpa [episodesLoop] using h
  | cons occ rest ih =>
      intro n p st segs h
      rw [episodesLoop]
      by_cases h1 : p = false ∧ occ = true
      · rw [if_pos h1]
        exact ih _ _ _ _ ((h1.1 ▸ h).openEpisode hfps)
      · rw [if_neg h1]
        by_cases h2 : p = true ∧ occ = false
        · rw [if_pos h2]
          exact ih _ _ _ _ ((h2.1 ▸ h).closeEpisode)
        · rw [if_neg h2]
          exact ih _ _ _ _ h.step


lemma SegsInv.good {fps : ℚ} {n : ℕ} {p : Bool} {st : ℚ} {segs : List (ℚ × ℚ)}
    (hfps : 0 < fps) (h : SegsInv fps n p st segs) :
    (∀ s ∈ segs, s.1 < s.2) ∧ segs.Pairwise (fun a b => a.2 ≤ b.1) := by
  obtain ⟨hall, hpw, _⟩ := h
  refine ⟨?_, hpw⟩
  intro s hs
  obtain ⟨j, k, hjk, _, h1, h2⟩ := hall s hs
  rw [h1, h2]
  have hq : (j : ℚ) < (k : ℚ) := by exact_mod_cast hjk
  exact (div_lt_div_iff_of_pos_right hfps).mpr hq

lemma episodes_good {fps : ℚ} (hfps : 0 < fps) (frames : List Bool) :
    (∀ s ∈ episodes fps frames, s.1 < s.2) ∧
    (episodes fps frames).Pairwise (fun a b => a.2 ≤ b.1) := by
  have h0 : SegsInv fps 0 false 0 ([] : List (ℚ × ℚ)) := ⟨by simp, by simp, by simp⟩
  have h := episodesLoop_inv hfps frames 0 false 0 [] h0
  rw [episodes]
  by_cases hp : (episodesLoop fps frames 0 false 0 []).2.1 = true
  · rw [if_pos hp]
    exact ((hp ▸ h).closeEpisode).good hfps
  · rw [if_neg hp]
    exact h.good hfps

lemma detect_presort_eq_filter (fps minDur : ℚ) (frames : List Bool) :
    (if (detectLoop fps minDur frames 0 false 0 []).2.1 = true ∧
        minDur ≤ ((detectLoop fps minDur frames 0 false 0 []).2.2.2 : ℚ) / fps -
          (detectLoop fps minDur frames 0 false 0 []).2.2.1
      then (detectLoop fps minDur frames 0 false 0 []).1 ++
        [((detectLoop fps minDur frames 0 false 0 []).2.2.1,
          ((detectLoop fps minDur frames 0 false 0 []).2.2.2 : ℚ) / fps)]
      else (detectLoop fps minDur frames 0 false 0 []).1) =
    (episodes fps frames).filter (durOK minDur) := by
  have key := detectLoop_eq_filter_episodesLoop fps minDur frames 0 false 0 []
  simp only [List.filter_nil] at key
  rw [key, episodes]
  by_cases hp : (episodesLoop fps frames 0 false 0 []).2.1 = true
  · rw [if_pos hp]
    by_cases hd : minDur ≤ ((episodesLoop fps frames 0 false 0 []).2.2.2 : ℚ) / fps -
        (episodesLoop fps frames 0 false 0 []).2.2.1
    · rw [if_pos ⟨hp, hd⟩, List.filter_append]
      simp [durOK, hd]
    · rw [if_neg (fun hc => hd hc.2), List.filter_append]
      simp [durOK, hd]
  · rw [if_neg (fun hc => hp hc.1), if_neg hp]

lemma detect_performances_eq_filter (fps minDur : ℚ) (frames : List Bool)
    (hfps : 0 < fps) :
    detect_performances fps minDur frames =
      (episodes fps frames).filter (durOK minDur) := by
  have hgood := episodes_good hfps frames
  have h1 : (episodes fps frames).Pairwise (fun a b : ℚ × ℚ => a.1 ≤ b.1) :=
    hgood.2.imp_of_mem (fun ha _ hab => le_of_lt (lt_of_lt_of_le (hgood.1 _ ha) hab))
  have hsorted : ((episodes fps frames).filter (durOK minDur)).Pairwise
      (fun a b : ℚ × ℚ => a.1 ≤ b.1) :=
    List.Pairwise.sublist (List.filter_sublist _) h1
  rw [detect_performances, detect_presort_eq_filter]
  exact List.Sorted.insertionSort_eq hsorted

/-- C3: for every frame stream, frame rate and configuration, the detector
returns exactly the occupancy episodes whose duration reaches
`min_duration_seconds` — shorter episodes (including an episode still open at
the end of the stream, which is closed at `frame_number / fps`) are
discarded; in particular no returned interval is shorter than
`min_duration_seconds`. -/
theorem detector_emits_exactly_long_episodes (fps minDur : ℚ)
    (frames : List Bool) (hfps : 0 < fps) :
    detect_performances fps minDur frames =
      (episodes fps frames).filter (durOK minDur) ∧
    ∀ s ∈ detect_performances fps minDur frames, minDur ≤ s.2 - s.1 := by
  have heq := detect_performances_eq_filter fps minDur frames hfps
  refine ⟨heq, ?_⟩
  intro s hs
  rw [heq] at hs
  have := List.of_mem_filter hs
  simpa [durOK] using this

/-- Closed instantiation of `detector_emits_exactly_long_episodes`: a
0.1-second occupancy episode is dropped with `min_duration_seconds = 30`. -/
theorem detector_emits_exactly_long_episodes_witness :
    detect_performances 10 30 [true, false] =
      (episodes 10 [true, false]).filter (durOK 30) ∧
    ∀ s ∈ detect_performances 10 30 [true, false], (30 : ℚ) ≤ s.2 - s.1 :=
  detector_emits_exactly_long_episodes 10 30 [true, false] (by norm_num)

/-- C4: for every frame stream, frame rate and configuration, the returned
intervals are strictly ordered by start time, non-overlapping (each interval
ends no later than the next one starts), and of strictly positive duration. -/
theorem detector_intervals_ordered (fps minDur : ℚ) (frames : List Bool)
    (hfps : 0 < fps) :
    (detect_performances fps minDur frames).Pairwise
      (fun a b => a.1 < b.1 ∧ a.2 ≤ b.1) ∧
    ∀ s ∈ detect_performances fps minDur frames, s.1 < s.2 := by
  have heq := detect_performances_eq_filter fps minDur frames hfps
  have hgood := episodes_good hfps frames
  have hmem : ∀ s ∈ detect_performances fps minDur frames, s.1 < s.2 := by
    intro s hs
    rw [heq] at hs
    exact hgood.1 s (List.mem_of_mem_filter hs)
  refine ⟨?_, hmem⟩
  have hpw : (detect_performances fps minDur frames).Pairwise
      (fun a b : ℚ × ℚ => a.2 ≤ b.1) := by
    rw [heq]
    exact List.Pairwise.sublist (List.filter_sublist _) hgood.2
  exact hpw.imp_of_mem (fun ha _ hab => ⟨lt_of_lt_of_le (hmem _ ha) hab, hab⟩)

/-- Closed instantiation of `detector_intervals_ordered`. -/
theorem detector_intervals_ordered_witness :
    (detect_performances 1 1 [true, false, false, true, true, false]).Pairwise
      (fun a b => a.1 < b.1 ∧ a.2 ≤ b.1) ∧
    ∀ s ∈ detect_performances 1 1 [true, false, false, true, true, false],
      s.1 < s.2 :=
  detector_intervals_ordered 1 1 [true, false, false, true, true, false]
    (by norm_num)

/-! ### video_processor.process_pair, steps 2 and 3 (lines 153-219) and
video_utils.get_gpu_args (lines 104-110)

`find_audio_offset` and the ffmpeg/nvidia-smi processes are external; the
embedding takes the per-interval sync results and the per-probe nvidia-smi
outcomes as inputs, and represents each ffmpeg invocation of the encoding
loop by the data that distinguishes its three command branches: trim window,
chosen video codec with its extra arguments, and the audio plan (primary-only
passthrough versus two-input amix with the mic sought to `micStart`). -/

/-- `get_gpu_args`: the codec argument list, determined solely by whether the
`nvidia-smi` probe succeeds. -/
def get_gpu_args (nvidiaSmiOk : Bool) : List String :=
  if nvidiaSmiOk then ["-c:v", "h264_nvenc", "-preset", "p4", "-tune", "hq"]
  else ["-c:v", "libx264", "-preset", "medium"]

/-- The audio part of one ffmpeg command of the encoding loop: either the
primary track passed through (`-map 0:a`), or the amix filter graph mixing
the primary track with the mic track sought to `micStart`, each with its
volume gain. -/
inductive AudioPlan
  | primaryOnly
  | mixed (micStart videoVol micVol : ℚ)
deriving DecidableEq

/-- One ffmpeg invocation of the encoding loop (lines 182-219), reduced to
the data distinguishing its command branches. -/
structure SegmentJob where
  startTime : ℚ
  duration : ℚ
  vcodec : String
  extraArgs : List String
  audio : AudioPlan
deriving DecidableEq

/-- The per-interval offset samples collected by the sync step (lines
157-172): for each segment whose alignment succeeded with raw offset `off`,
the sample `off - start` is kept; failed alignments contribute nothing. -/
def all_offsets (segments : List (ℚ × ℚ)) (syncResults : List (Option ℚ)) :
    List ℚ :=
  (segments.zip syncResults).filterMap (fun sr => sr.2.map (fun off => off - sr.1.1))

/-- Lines 174-179: with no usable offset sample the mic audio path is
cleared and the global offset stays `0`; otherwise the consensus offset
(tolerance `1.0`, guaranteed `some` on a non-empty sample list) becomes the
global offset. -/
def syncPhase (micPath : Option String) (offs : List ℚ) : Option String × ℚ :=
  match micPath with
  | none => (none, 0)
  | some p =>
      if offs = [] then (none, 0)
      else (some p, (get_consensus_offset offs 1).getD 0)

/-- The encoding loop (lines 182-219). `probes` is the stream of
`nvidia-smi` outcomes, one consumed per `get_gpu_args` call; the second
component of the result counts those calls. The codec arguments are
recomputed inside the loop for every segment (line 193). -/
def encodeLoop (useGpu : Bool) (micPath : Option String) (vVol mVol gOff : ℚ) :
    List (ℚ × ℚ) → List Bool → List SegmentJob × ℕ
  | [], _ => ([], 0)
  | (st, en) :: rest, probes =>
      let gpuArgs := if useGpu then get_gpu_args (probes.headD false)
        else ["-c:v", "libx264", "-preset", "medium"]
      let probes1 := if useGpu then probes.tail else probes
      let vcodecIdx := gpuArgs.indexOf ("-c:v") + 1
      let audio := match micPath with
        | none => AudioPlan.primaryOnly
        | some _ =>
            if st + gOff < 0 then AudioPlan.primaryOnly
            else AudioPlan.mixed (st + gOff) vVol mVol
      let r := encodeLoop useGpu micPath vVol mVol gOff rest probes1
      (⟨st, en - st, gpuArgs.getD vcodecIdx "", gpuArgs.drop (vcodecIdx + 1),
        audio⟩ :: r.1,
        (if useGpu then 1 else 0) + r.2)

/-- Steps 2 and 3 of `process_pair` composed: run the sync phase on the
collected samples, then encode every detected segment with the resulting
effective mic path and global offset. -/
def process_pair_plan (useGpu : Bool) (micPath : Option String) (vVol mVol : ℚ)
    (segments : List (ℚ × ℚ)) (syncResults : List (Option ℚ))
    (probes : List Bool) : List SegmentJob × ℕ :=
  encodeLoop useGpu (syncPhase micPath (all_offsets segments syncResults)).1
    vVol mVol (syncPhase micPath (all_offsets segments syncResults)).2
    segments probes

lemma encodeLoop_audio_map (useGpu : Bool) (micPath : Option String)
    (vVol mVol gOff : ℚ) :
    ∀ (segments : List (ℚ × ℚ)) (probes : List Bool),
      (encodeLoop useGpu micPath vVol mVol gOff segments probes).1.map
          (fun j => j.audio) =
        segments.map (fun s =>
          match micPath with
          | none => AudioPlan.primaryOnly
          | some _ =>
              if s.1 + gOff < 0 then AudioPlan.primaryOnly
              else AudioPlan.mixed (s.1 + gOff) vVol mVol) := by
  intro segments
  induction segments with
  | nil => intro probes; simp [encodeLoop]
  | cons s rest ih =>
      intro probes
      obtain ⟨st, en⟩ := s
      simp only [encodeLoop, List.map_cons]
      rw [ih]

/-- C5: when an auxiliary audio path is supplied but every per-interval
alignment fails (zero offset samples), the run is not aborted: the effective
mic path is cleared and every segment of the run is planned with
primary-only audio. -/
theorem total_alignment_failure_degrades (p : String) (useGpu : Bool)
    (vVol mVol : ℚ) (segments : List (ℚ × ℚ)) (syncResults : List (Option ℚ))
    (probes : List Bool) (hall : ∀ r ∈ syncResults, r = none) :
    (syncPhase (some p) (all_offsets segments syncResults)).1 = none ∧
    ∀ job ∈ (process_pair_plan useGpu (some p) vVol mVol segments syncResults
        probes).1, job.audio = AudioPlan.primaryOnly := by
  have hoff : all_offsets segments syncResults = [] := by
    rw [all_offsets, List.filterMap_eq_nil_iff]
    intro sr hsr
    have h2 := (List.of_mem_zip hsr).2
    rw [hall _ h2]
    rfl
  have hsync : syncPhase (some p) (all_offsets segments syncResults) = (none, 0) := by
    rw [hoff]
    rfl
  refine ⟨by rw [hsync], ?_⟩
  intro job hjob
  rw [process_pair_plan, hsync] at hjob
  have hmap := encodeLoop_audio_map useGpu none vVol mVol 0 segments probes
  have : job.audio ∈ (encodeLoop useGpu none vVol mVol 0 segments probes).1.map
      (fun j => j.audio) := List.mem_map_of_mem _ hjob
  rw [hmap] at this
  rcases List.mem_map.mp this with ⟨s, _, hs⟩
  exact hs.symm

/-- Closed instantiation of `total_alignment_failure_degrades`. -/
theorem total_alignment_failure_degrades_witness :
    (syncPhase (some ("mic.wav")) (all_offsets [((0 : ℚ), 40)] [none])).1 = none ∧
    ∀ job ∈ (process_pair_plan false (some ("mic.wav")) 1 1 [((0 : ℚ), 40)]
        [none] []).1, job.audio = AudioPlan.primaryOnly :=
  total_alignment_failure_degrades ("mic.wav") false 1 1 [((0 : ℚ), 40)] [none] []
    (by intro r hr; simpa using hr)

/-- C6: with a mic track present, each segment is planned independently from
its own `micStart = start + globalOffset`: a segment with negative
`micStart` degrades to primary-only audio, and every segment with
non-negative `micStart` keeps the two-track mixed audio. -/
theorem negative_micstart_drops_mic_for_that_segment (p : String)
    (useGpu : Bool) (vVol mVol gOff : ℚ) (segments : List (ℚ × ℚ))
    (probes : List Bool) :
    (encodeLoop useGpu (some p) vVol mVol gOff segments probes).1.map
        (fun j => j.audio) =
      segments.map (fun s =>
        if s.1 + gOff < 0 then AudioPlan.primaryOnly
        else AudioPlan.mixed (s.1 + gOff) vVol mVol) :=
  encodeLoop_audio_map useGpu (some p) vVol mVol gOff segments probes

/-- C7 counterexample: in a run of two segments with GPU use enabled, the
`nvidia-smi` probe (`get_gpu_args`) runs twice — once per segment, not once
per run — and if the environment answers differently between the two calls,
the two segments are encoded on different codec paths. -/
theorem codec_probe_once_per_run_false :
    (encodeLoop true none 1 1 0 [(0, 10), (20, 30)] [true, false]).2 = 2 ∧
    (encodeLoop true none 1 1 0 [(0, 10), (20, 30)] [true, false]).1.map
      (fun j => j.vcodec) = ["h264_nvenc", "libx264"] := by
  constructor
  · rfl
  · rfl

lemma encodeLoop_probe_count (micPath : Option String) (vVol mVol gOff : ℚ) :
    ∀ (segments : List (ℚ × ℚ)) (probes : List Bool),
      (encodeLoop true micPath vVol mVol gOff segments probes).2 =
        segments.length := by
  intro segments
  induction segments with
  | nil => intro probes; simp [encodeLoop]
  | cons s rest ih =>
      intro probes
      obtain ⟨st, en⟩ := s
      simp only [encodeLoop, if_true, List.length_cons]
      rw [ih]
      omega

/-- C7, amended: the hardware/software codec selection is made once per
segment, not once per run — `get_gpu_args` is invoked inside the encoding
loop, once for every segment when GPU use is enabled — and only when the
probe answers identically on every call (as it does in a fixed environment)
do all segments of the run use the same codec path. -/
theorem codec_selection_once_per_segment (micPath : Option String)
    (vVol mVol gOff : ℚ) (segments : List (ℚ × ℚ)) (probes : List Bool)
    (b : Bool) (hb : ∀ x ∈ probes, x = b)
    (hlen : segments.length ≤ probes.length) :
    (encodeLoop true micPath vVol mVol gOff segments probes).2 =
      segments.length ∧
    ∀ job ∈ (encodeLoop true micPath vVol mVol gOff segments probes).1,
      job.vcodec =
        (get_gpu_args b).getD ((get_gpu_args b).indexOf ("-c:v") + 1) "" := by
  refine ⟨encodeLoop_probe_count micPath vVol mVol gOff segments probes, ?_⟩
  induction segments generalizing probes with
  | nil => intro job hjob; simp [encodeLoop] at hjob
  | cons s rest ih =>
      intro job hjob
      obtain ⟨st, en⟩ := s
      obtain ⟨q, probes1, rfl⟩ : ∃ q probes1, probes = q :: probes1 := by
        cases probes with
        | nil => simp at hlen
        | cons q probes1 => exact ⟨q, probes1, rfl⟩
      have hq : q = b := hb q (List.mem_cons_self ..)
      simp only [encodeLoop, if_true, List.headD_cons, List.tail_cons] at hjob
      rcases List.mem_cons.mp hjob with rfl | hjob
      · simp [hq]
      · exact ih probes1 (fun x hx => hb x (List.mem_cons_of_mem _ hx))
          (by simp only [List.length_cons] at hlen; omega) job hjob

/-- Closed instantiation of `codec_selection_once_per_segment`. -/
theorem codec_selection_once_per_segment_witness :
    (encodeLoop true none 1 1 0 [((0 : ℚ), 10)] [false]).2 = 1 ∧
    ∀ job ∈ (encodeLoop true none 1 1 0 [((0 : ℚ), 10)] [false]).1,
      job.vcodec =
        (get_gpu_args false).getD
          ((get_gpu_args false).indexOf ("-c:v") + 1) "" :=
  codec_selection_once_per_segment none 1 1 0 [((0 : ℚ), 10)] [false] false
    (by intro x hx; simpa using hx) (by simp)

/-! ### youtube_uploader.py: QuotaManager, upload_video, batch_upload

Wall-clock time is modelled as seconds since the Unix epoch (ℤ); the
persisted `upload_state.json` is the `QuotaState` record. The YouTube API is
modelled by one outcome per attempt, indexed by the retry count it is made
with. -/

/-- Line 57: daily quota budget in API units. -/
def DAILY_QUOTA_LIMIT : ℕ := 10000

/-- Line 58: API units consumed per `videos.insert`. -/
def VIDEO_INSERT_COST : ℕ := 1600

/-- Line 59: uploads allowed per day, the floor of budget over cost. -/
def MAX_UPLOADS_PER_DAY : ℕ := DAILY_QUOTA_LIMIT / VIDEO_INSERT_COST

/-- Line 65: bound on retries of a transient upload failure. -/
def MAX_RETRIES : ℕ := 5

/-- One element of the persisted `upload_history` (lines 162-169). -/
structure HistoryEntry where
  filePath : String
  videoId : Option String
  uploadTime : ℤ
  status : String
  error : Option String
deriving DecidableEq

/-- The persisted scheduler state (`upload_state.json`, lines 90-95);
`pending_uploads` is never read and is omitted. -/
structure QuotaState where
  quotaResetTime : ℤ
  uploadsToday : ℕ
  uploadHistory : List HistoryEntry
deriving DecidableEq

/-- `_get_next_quota_reset` (lines 105-120): the next midnight of the fixed
UTC-8 zone (28800 seconds behind UTC) strictly after `now`, computed by
moving to Pacific time, stepping one day, flooring to midnight, and moving
back. -/
def nextQuotaReset (now : ℤ) : ℤ :=
  ((now - 28800).fdiv 86400 + 1) * 86400 + 28800

/-- `check_and_reset_quota` (lines 122-131). -/
def check_and_reset_quota (now : ℤ) (s : QuotaState) : QuotaState :=
  if s.quotaResetTime ≤ now then
    { s with uploadsToday := 0, quotaResetTime := nextQuotaReset now }
  else s

/-- `can_upload` (lines 133-136): the state after the embedded reset check,
and the verdict. -/
def can_upload (now : ℤ) (s : QuotaState) : QuotaState × Bool :=
  (check_and_reset_quota now s,
    (check_and_reset_quota now s).uploadsToday < MAX_UPLOADS_PER_DAY)

/-- `wait_for_quota_reset` (lines 138-152): when the reset instant is still
ahead, sleep exactly until it and re-run the reset check; returns the clock
after the wait together with the state. -/
def wait_for_quota_reset (now : ℤ) (s : QuotaState) : ℤ × QuotaState :=
  if now < s.quotaResetTime then
    (s.quotaResetTime, check_and_reset_quota s.quotaResetTime s)
  else (now, s)

/-- `increment_upload_count` (lines 154-157). -/
def increment_upload_count (s : QuotaState) : QuotaState :=
  { s with uploadsToday := s.uploadsToday + 1 }

/-- `add_upload_history` (lines 159-172). -/
def add_upload_history (now : ℤ) (filePath : String) (videoId : Option String)
    (status : String) (error : Option String) (s : QuotaState) : QuotaState :=
  { s with uploadHistory := s.uploadHistory ++
      [⟨filePath, videoId, now, status, error⟩] }

/-- Outcome of one upload attempt: success with a video id, an error in
`RETRIABLE_STATUS_CODES` or `RETRIABLE_EXCEPTIONS`, or a non-retriable
error. -/
inductive AttemptResult
  | success (videoId : String)
  | retriable
  | fatal
deriving DecidableEq

/-- `upload_video` (lines 298-404): attempt the upload; on a retriable
failure with `retry_count < MAX_RETRIES`, back off and recurse with
`retry_count + 1`, otherwise re-raise to the caller. `env` maps the retry count of an
attempt to its outcome; the result is the returned video id (`none` when
the exception propagates) paired with the retry count of the last attempt
made. The recursion is bounded because the retry count never passes
`MAX_RETRIES`; `fuel` makes that bound structural and is not exhausted when
it starts above `MAX_RETRIES - retry_count`. -/
def uploadVideoGo : ℕ → (ℕ → AttemptResult) → ℕ → Option String × ℕ
  | 0, _, retryCount => (none, retryCount)
  | fuel + 1, env, retryCount =>
      match env retryCount with
      | .success v => (some v, retryCount)
      | .fatal => (none, retryCount)
      | .retriable =>
          if retryCount < MAX_RETRIES then uploadVideoGo fuel env (retryCount + 1)
          else (none, retryCount)

/-- `upload_video` entered, as in `batch_upload`, with `retry_count = 0`. -/
def upload_video (env : ℕ → AttemptResult) : Option String × ℕ :=
  uploadVideoGo (MAX_RETRIES + 1) env 0

/-- One entry of the metadata `videos` array; only the pairing with a file
matters here. -/
structure VideoMeta where
  title : String
deriving DecidableEq

/-- One iteration of the `batch_upload` loop body (lines 487-511) for one
file: quota check, wait on exhaustion, upload, then record exactly one
history entry — `success` plus a count increment, or `failed` with the
exception text (abstracted to a placeholder) — and continue. -/
def batchStep (now : ℤ) (env : ℕ → AttemptResult) (filePath : String)
    (s : QuotaState) : QuotaState :=
  let s1 := (can_upload now s).1
  let ok := (can_upload now s).2
  let now2 := if ok then now else (wait_for_quota_reset now s1).1
  let s2 := if ok then s1 else (wait_for_quota_reset now s1).2
  match (upload_video env).1 with
  | some vid =>
      increment_upload_count
        (add_upload_history now2 filePath (some vid) ("success") none s2)
  | none =>
      add_upload_history now2 filePath none ("failed") (some ("error")) s2

/-- The `for i, (video_file, video_metadata) in enumerate(zip(...))` loop of
`batch_upload`; `env` gives each file its attempt outcomes and `nows` the
wall clock at the start of each iteration. -/
def batchLoop (env : String → ℕ → AttemptResult) (nows : ℕ → ℤ) :
    List (String × VideoMeta) → ℕ → QuotaState → QuotaState
  | [], _, s => s
  | (f, _) :: rest, i, s =>
      batchLoop env nows rest (i + 1) (batchStep (nows i) (env f) f s)

/-- `batch_upload` (lines 430-524) up to the returned summary: an empty
directory returns immediately; a file/metadata count mismatch raises without
a confirmation callback and is cancellable with one; a present callback is
also asked for a final confirmation; then the loop runs over
`zip(video_files, video_metadata_list)`. `confirm` is
`some (onMismatch, final)` when a callback is supplied, holding its answers
to the two possible calls. -/
def batch_upload (env : String → ℕ → AttemptResult) (nows : ℕ → ℤ)
    (files : List String) (metas : List VideoMeta)
    (confirm : Option (Bool × Bool)) (s0 : QuotaState) :
    Except String QuotaState :=
  if files = [] then .ok s0
  else
    match confirm with
    | none =>
        if files.length = metas.length then
          .ok (batchLoop env nows (files.zip metas) 0 s0)
        else .error ("metadata mismatch")
    | some c =>
        if files.length ≠ metas.length ∧ c.1 = false then .ok s0
        else if c.2 = false then .ok s0
        else .ok (batchLoop env nows (files.zip metas) 0 s0)

/-- The durable content of a history entry that is independent of the wall
clock: file path, remote id, status. -/
def entryCore (e : HistoryEntry) : String × Option String × String :=
  (e.filePath, e.videoId, e.status)

/-- The single history record `batch_upload` produces for one file. -/
def fileOutcome (env : ℕ → AttemptResult) (f : String) :
    String × Option String × String :=
  match (upload_video env).1 with
  | some vid => (f, some vid, ("success"))
  | none => (f, none, ("failed"))

lemma max_uploads_eq : MAX_UPLOADS_PER_DAY = 6 := rfl

lemma check_history (now : ℤ) (s : QuotaState) :
    (check_and_reset_quota now s).uploadHistory = s.uploadHistory := by
  rw [check_and_reset_quota]
  split <;> rfl

lemma wait_history (now : ℤ) (s : QuotaState) :
    ((wait_for_quota_reset now s).2).uploadHistory = s.uploadHistory := by
  rw [wait_for_quota_reset]
  split
  · exact check_history _ _
  · rfl

lemma batchStep_history (now : ℤ) (env : ℕ → AttemptResult) (f : String)
    (s : QuotaState) :
    (batchStep now env f s).uploadHistory.map entryCore =
      s.uploadHistory.map entryCore ++ [fileOutcome env f] := by
  have hhist : (if (can_upload now s).2 then (can_upload now s).1
      else (wait_for_quota_reset now (can_upload now s).1).2).uploadHistory =
        s.uploadHistory := by
    split
    · exact check_history _ _
    · rw [wait_history]
      exact check_history _ _
  rw [batchStep]
  rcases hup : (upload_video env).1 with _ | vid <;>
    simp [hup, add_upload_history, increment_upload_count, entryCore,
      fileOutcome, hhist]

lemma batchLoop_history (env : String → ℕ → AttemptResult) (nows : ℕ → ℤ) :
    ∀ (pairs : List (String × VideoMeta)) (i : ℕ) (s : QuotaState),
      (batchLoop env nows pairs i s).uploadHistory.map entryCore =
        s.uploadHistory.map entryCore ++
          pairs.map (fun p => fileOutcome (env p.1) p.1) := by
  intro pairs
  induction pairs with
  | nil => intro i s; simp [batchLoop]
  | cons p rest ih =>
      intro i s
      obtain ⟨f, m⟩ := p
      rw [batchLoop, ih, batchStep_history]
      simp

lemma batchStep_uploads_le (now : ℤ) (env : ℕ → AttemptResult) (f : String)
    (s : QuotaState) (h : s.uploadsToday ≤ MAX_UPLOADS_PER_DAY) :
    (batchStep now env f s).uploadsToday ≤ MAX_UPLOADS_PER_DAY := by
  rw [batchStep]
  by_cases hlt : (check_and_reset_quota now s).uploadsToday < MAX_UPLOADS_PER_DAY
  · rcases hup : (upload_video env).1 with _ | vid <;>
      simp [hup, increment_upload_count, add_upload_history, can_upload, hlt] <;>
      omega
  · have hres : ¬ s.quotaResetTime ≤ now := by
      intro hle
      apply hlt
      simp [check_and_reset_quota, hle, max_uploads_eq]
    have hs1 : check_and_reset_quota now s = s := by
      rw [check_and_reset_quota, if_neg hres]
    have hwait : (wait_for_quota_reset now (check_and_reset_quota now s)).2.uploadsToday = 0 := by
      rw [hs1, wait_for_quota_reset, if_pos (lt_of_not_le hres)]
      simp [check_and_reset_quota]
    have hs2 : (if (can_upload now s).2 then (can_upload now s).1
        else (wait_for_quota_reset now (can_upload now s).1).2).uploadsToday = 0 := by
      have hcond : (can_upload now s).2 = false := by
        simp [can_upload, hlt]
      rw [hcond]
      simpa using hwait
    rcases hup : (upload_video env).1 with _ | vid <;>
      simp [hup, increment_upload_count, add_upload_history, hs2, max_uploads_eq]

lemma batchLoop_uploads_le (env : String → ℕ → AttemptResult) (nows : ℕ → ℤ) :
    ∀ (pairs : List (String × VideoMeta)) (i : ℕ) (s : QuotaState),
      s.uploadsToday ≤ MAX_UPLOADS_PER_DAY →
      (batchLoop env nows pairs i s).uploadsToday ≤ MAX_UPLOADS_PER_DAY := by
  intro pairs
  induction pairs with
  | nil => intro i s h; simpa [batchLoop] using h
  | cons p rest ih =>
      intro i s h
      obtain ⟨f, m⟩ := p
      rw [batchLoop]
      exact ih _ _ (batchStep_uploads_le _ _ _ _ h)

/-- C1: the daily cap is `floor(DAILY_QUOTA_LIMIT / VIDEO_INSERT_COST) = 6`;
within a quota window `check_and_reset_quota` leaves the state unchanged and
a successful upload raises `uploadsToday` by exactly one (a failed one by
zero); the counter is reset to `0` as soon as the clock reaches
`quotaResetTime`; and from any persisted state satisfying the cap, every run
of the batch loop keeps `uploadsToday ≤ 6`. -/
theorem quota_cap_and_reset (s : QuotaState) (now : ℤ)
    (env : String → ℕ → AttemptResult) (nows : ℕ → ℤ)
    (pairs : List (String × VideoMeta)) (i : ℕ)
    (hcap : s.uploadsToday ≤ MAX_UPLOADS_PER_DAY) :
    MAX_UPLOADS_PER_DAY = DAILY_QUOTA_LIMIT / VIDEO_INSERT_COST ∧
    MAX_UPLOADS_PER_DAY = 6 ∧
    (s.quotaResetTime ≤ now → (check_and_reset_quota now s).uploadsToday = 0) ∧
    (now < s.quotaResetTime → check_and_reset_quota now s = s) ∧
    (now < s.quotaResetTime → s.uploadsToday < MAX_UPLOADS_PER_DAY → ∀ f,
      (batchStep now (env f) f s).uploadsToday =
        if (upload_video (env f)).1.isSome then s.uploadsToday + 1
        else s.uploadsToday) ∧
    (batchLoop env nows pairs i s).uploadsToday ≤ MAX_UPLOADS_PER_DAY := by
  refine ⟨rfl, rfl, ?_, ?_, ?_, batchLoop_uploads_le env nows pairs i s hcap⟩
  · intro hle
    simp [check_and_reset_quota, hle]
  · intro hlt
    rw [check_and_reset_quota, if_neg (not_le.mpr hlt)]
  · intro hlt hunder f
    have hcheck : check_and_reset_quota now s = s := by
      rw [check_and_reset_quota, if_neg (not_le.mpr hlt)]
    have hok : (can_upload now s).2 = true := by
      simp [can_upload, hcheck, hunder]
    rw [batchStep]
    rcases hup : (upload_video (env f)).1 with _ | vid <;>
      simp [hok, hup, can_upload, hcheck, hunder, increment_upload_count,
        add_upload_history]

/-- Closed instantiation of `quota_cap_and_reset`. -/
theorem quota_cap_and_reset_witness :
    MAX_UPLOADS_PER_DAY = DAILY_QUOTA_LIMIT / VIDEO_INSERT_COST ∧
    MAX_UPLOADS_PER_DAY = 6 ∧
    ((86400 : ℤ) ≤ 86400 →
      (check_and_reset_quota 86400 ⟨86400, 6, []⟩).uploadsToday = 0) ∧
    ((86400 : ℤ) < 86400 → check_and_reset_quota 86400 ⟨86400, 6, []⟩ =
      ⟨86400, 6, []⟩) ∧
    ((86400 : ℤ) < 86400 → (6 : ℕ) < MAX_UPLOADS_PER_DAY → ∀ f,
      (batchStep 86400 ((fun _ _ => AttemptResult.fatal) f) f
          ⟨86400, 6, []⟩).uploadsToday =
        if (upload_video ((fun _ _ => AttemptResult.fatal) f)).1.isSome
        then 6 + 1 else 6) ∧
    (batchLoop (fun _ _ => AttemptResult.fatal) (fun _ => 0) [] 0
      ⟨86400, 6, []⟩).uploadsToday ≤ MAX_UPLOADS_PER_DAY :=
  quota_cap_and_reset ⟨86400, 6, []⟩ 86400 (fun _ _ => AttemptResult.fatal)
    (fun _ => 0) [] 0 (by simp [max_uploads_eq])

lemma uploadVideoGo_retry_le :
    ∀ (fuel : ℕ) (env : ℕ → AttemptResult) (r : ℕ), r ≤ MAX_RETRIES →
      (uploadVideoGo fuel env r).2 ≤ MAX_RETRIES := by
  intro fuel
  induction fuel with
  | zero => intro env r h; simpa [uploadVideoGo] using h
  | succ fuel ih =>
      intro env r h
      rw [uploadVideoGo]
      cases env r with
      | success v => simpa using h
      | fatal => simpa using h
      | retriable =>
          by_cases hr : r < MAX_RETRIES
          · rw [if_pos hr]
            exact ih env (r + 1) (by omega)
          · rw [if_neg hr]
            simpa using h

lemma upload_video_retry_le (env : ℕ → AttemptResult) :
    (upload_video env).2 ≤ MAX_RETRIES :=
  uploadVideoGo_retry_le (MAX_RETRIES + 1) env 0 (by simp)

lemma upload_video_exhausted (env : ℕ → AttemptResult)
    (hexh : ∀ r, env r = AttemptResult.retriable) :
    upload_video env = (none, MAX_RETRIES) := by
  have h5 : uploadVideoGo 1 env 5 = (none, 5) := by
    rw [uploadVideoGo, hexh 5]
    simp [MAX_RETRIES]
  have h4 : uploadVideoGo 2 env 4 = (none, 5) := by
    rw [uploadVideoGo, hexh 4]
    simp [MAX_RETRIES, h5]
  have h3 : uploadVideoGo 3 env 3 = (none, 5) := by
    rw [uploadVideoGo, hexh 3]
    simp [MAX_RETRIES, h4]
  have h2 : uploadVideoGo 4 env 2 = (none, 5) := by
    rw [uploadVideoGo, hexh 2]
    simp [MAX_RETRIES, h3]
  have h1 : uploadVideoGo 5 env 1 = (none, 5) := by
    rw [uploadVideoGo, hexh 1]
    simp [MAX_RETRIES, h2]
  have h0 : uploadVideoGo 6 env 0 = (none, 5) := by
    rw [uploadVideoGo, hexh 0]
    simp [MAX_RETRIES, h1]
  simpa [upload_video, MAX_RETRIES] using h0

/-- C8: the retry count of any upload never exceeds `MAX_RETRIES = 5`; a file
whose every attempt fails with a retriable error exhausts the bound and the
exception surfaces to the batch loop, which records exactly one `failed`
history entry for that file — not one per retry — and then continues with the
remaining files. -/
theorem retry_bounded_single_failed_entry
    (env : String → ℕ → AttemptResult) (nows : ℕ → ℤ) (f : String)
    (m : VideoMeta) (rest : List (String × VideoMeta)) (i : ℕ) (s : QuotaState)
    (hexh : ∀ r, env f r = AttemptResult.retriable) :
    (∀ e : ℕ → AttemptResult, (upload_video e).2 ≤ MAX_RETRIES) ∧
    upload_video (env f) = (none, MAX_RETRIES) ∧
    (batchLoop env nows ((f, m) :: rest) i s).uploadHistory.map entryCore =
      (s.uploadHistory.map entryCore ++ [(f, none, ("failed"))]) ++
        rest.map (fun p => fileOutcome (env p.1) p.1) := by
  have hev := upload_video_exhausted (env f) hexh
  refine ⟨upload_video_retry_le, hev, ?_⟩
  rw [batchLoop, batchLoop_history, batchStep_history]
  have hout : fileOutcome (env f) f = (f, none, ("failed")) := by
    rw [fileOutcome, hev]
  rw [hout]

/-- Closed instantiation of `retry_bounded_single_failed_entry`. -/
theorem retry_bounded_single_failed_entry_witness :
    (∀ e : ℕ → AttemptResult, (upload_video e).2 ≤ MAX_RETRIES) ∧
    upload_video ((fun _ _ => AttemptResult.retriable) ("a.mp4")) =
      (none, MAX_RETRIES) ∧
    (batchLoop (fun _ _ => AttemptResult.retriable) (fun _ => 0)
        [(("a.mp4"), VideoMeta.mk ("t1")), (("b.mp4"), VideoMeta.mk ("t2"))] 0
        (QuotaState.mk 86400 0 [])).uploadHistory.map entryCore =
      ((QuotaState.mk 86400 0 []).uploadHistory.map entryCore ++
          [(("a.mp4"), none, ("failed"))]) ++
        [(("b.mp4"), VideoMeta.mk ("t2"))].map
          (fun p => fileOutcome ((fun _ _ => AttemptResult.retriable) p.1) p.1) :=
  retry_bounded_single_failed_entry (fun _ _ => AttemptResult.retriable)
    (fun _ => 0) ("a.mp4") (VideoMeta.mk ("t1"))
    [(("b.mp4"), VideoMeta.mk ("t2"))] 0 (QuotaState.mk 86400 0 [])
    (fun _ => rfl)

/-- C10: when the file and metadata counts differ and the confirmation
callback approves (both the mismatch prompt and the final prompt),
`batch_upload` pairs files and metadata positionally via `zip` and uploads
exactly `min(fileCount, metadataCount)` pairs; the surplus files or metadata
entries get no upload attempt and no history entry. -/
theorem mismatch_confirmed_uploads_zip (env : String → ℕ → AttemptResult)
    (nows : ℕ → ℤ) (files : List String) (metas : List VideoMeta)
    (s0 : QuotaState) (hne : files ≠ [])
    (hmis : files.length ≠ metas.length) :
    batch_upload env nows files metas (some (true, true)) s0 =
      .ok (batchLoop env nows (files.zip metas) 0 s0) ∧
    (files.zip metas).length = min files.length metas.length ∧
    (batchLoop env nows (files.zip metas) 0 s0).uploadHistory.map entryCore =
      s0.uploadHistory.map entryCore ++
        (files.zip metas).map (fun p => fileOutcome (env p.1) p.1) := by
  refine ⟨?_, List.length_zip files metas,
    batchLoop_history env nows (files.zip metas) 0 s0⟩
  rw [batch_upload, if_neg hne]
  simp

/-- Closed instantiation of `mismatch_confirmed_uploads_zip`. -/
theorem mismatch_confirmed_uploads_zip_witness :
    batch_upload (fun _ _ => AttemptResult.fatal) (fun _ => 0)
        [("a.mp4"), ("b.mp4")] [VideoMeta.mk ("t1")] (some (true, true))
        (QuotaState.mk 86400 0 []) =
      .ok (batchLoop (fun _ _ => AttemptResult.fatal) (fun _ => 0)
        ([("a.mp4"), ("b.mp4")].zip [VideoMeta.mk ("t1")]) 0
        (QuotaState.mk 86400 0 [])) ∧
    (([("a.mp4"), ("b.mp4")].zip [VideoMeta.mk ("t1")]).length =
      min ([("a.mp4"), ("b.mp4")].length) ([VideoMeta.mk ("t1")].length)) ∧
    (batchLoop (fun _ _ => AttemptResult.fatal) (fun _ => 0)
        ([("a.mp4"), ("b.mp4")].zip [VideoMeta.mk ("t1")]) 0
        (QuotaState.mk 86400 0 [])).uploadHistory.map entryCore =
      (QuotaState.mk 86400 0 []).uploadHistory.map entryCore ++
        ([("a.mp4"), ("b.mp4")].zip [VideoMeta.mk ("t1")]).map
          (fun p => fileOutcome ((fun _ _ => AttemptResult.fatal) p.1) p.1) :=
  mismatch_confirmed_uploads_zip (fun _ _ => AttemptResult.fatal) (fun _ => 0)
    [("a.mp4"), ("b.mp4")] [VideoMeta.mk ("t1")] (QuotaState.mk 86400 0 [])
    (by simp) (by simp)
